import Mathlib

/-!
Shallow embedding of the matching core of this repository: the expression
model (expression.js), the Constraint class (matching/constraint.js) and the
Substitution class (matching/substitution.js), together with the helper
predicates they consume from metavariables.js, de-bruijn.js and
expression-functions.js.  Expressions are modelled as finite trees of symbols
(with their metavariable flag), applications and binding expressions; all
operations are translated as pure, executable functions.
-/

/--
The expression model: a Symbol carries a name and its metavariable flag (the
only attributes that equality consults, per the specification); an Application
carries an ordered list of children; a BindingExpression carries its children,
all but the last of which are its bound-variable symbols and the last of which
is its body.
-/
inductive Expression where
  | sym (name : String) (isMeta : Bool) : Expression
  | app (children : List Expression) : Expression
  | bind (children : List Expression) : Expression

mutual

/--
Structural equality of expressions, modelling the equals() comparison used
throughout the matching module.  Modelled from the spec: equality is
structural and consults no attributes other than the metavariable flag (and
de Bruijn markers); since our symbols carry exactly that data, this is plain
structural equality.
-/
def Expression.beq : Expression → Expression → Bool
  | .sym n m, .sym n2 m2 => n == n2 && m == m2
  | .app cs, .app cs2 => Expression.beqList cs cs2
  | .bind cs, .bind cs2 => Expression.beqList cs cs2
  | _, _ => false

/-- Pointwise structural equality of two lists of expressions. -/
def Expression.beqList : List Expression → List Expression → Bool
  | [], [] => true
  | c :: cs, c2 :: cs2 => Expression.beq c c2 && Expression.beqList cs cs2
  | _, _ => false

end

/-- The number of children of an expression, modelling numChildren(). -/
def numChildren : Expression → Nat
  | .sym _ _ => 0
  | .app cs => cs.length
  | .bind cs => cs.length

/-- The text of a symbol, modelling the text() accessor of the Symbol class. -/
def Expression.text : Expression → String
  | .sym n _ => n
  | _ => ""

/--
Whether an expression is a metavariable: an instance of the Symbol class that
carries the metavariable attribute.  Modelled from the spec: a metavariable
is a Symbol carrying the metavariable flag (metavariables.js is not part of
the sources provided).
-/
def isMetavariable : Expression → Bool
  | .sym _ m => m
  | _ => false

mutual

/--
Whether any descendant of the expression (the expression itself included) is
a metavariable.  Modelled from the spec: the expression model exposes a
containsAMetavariable(e) query (metavariables.js is not part of the sources
provided).
-/
def containsAMetavariable : Expression → Bool
  | .sym _ m => m
  | .app cs => listContainsAMetavariable cs
  | .bind cs => listContainsAMetavariable cs

/-- Whether any member of a list of expressions contains a metavariable. -/
def listContainsAMetavariable : List Expression → Bool
  | [] => false
  | c :: cs => containsAMetavariable c || listContainsAMetavariable cs

end

mutual

/--
How many descendants of the second expression (itself included) are
structurally equal to the first.  Modelled from the spec: the de Bruijn
encoder exposes a helper occurrences(sub, e) returning how many times sub
appears inside e, by structural match of de Bruijn-encoded subtrees
(de-bruijn.js is not part of the sources provided).
-/
def numberOfOccurrences (sub : Expression) : Expression → Nat
  | .sym n m => if Expression.beq (.sym n m) sub then 1 else 0
  | .app cs => (if Expression.beq (.app cs) sub then 1 else 0)
      + listNumberOfOccurrences sub cs
  | .bind cs => (if Expression.beq (.bind cs) sub then 1 else 0)
      + listNumberOfOccurrences sub cs

/-- Total occurrence count of an expression across a list of expressions. -/
def listNumberOfOccurrences (sub : Expression) : List Expression → Nat
  | [] => 0
  | c :: cs => numberOfOccurrences sub c + listNumberOfOccurrences sub cs

end

mutual

/--
The names of all metavariables occurring anywhere in an expression.
Modelled from the spec: the Substitution class caches the set of
metavariable names occurring in its expression, as computed by
metavariableNamesIn (metavariables.js is not part of the sources provided).
The result is a list read as a set: only membership matters.
-/
def metavariableNamesIn : Expression → List String
  | .sym n m => if m then [n] else []
  | .app cs => listMetavariableNamesIn cs
  | .bind cs => listMetavariableNamesIn cs

/-- The metavariable names occurring across a list of expressions. -/
def listMetavariableNamesIn : List Expression → List String
  | [] => []
  | c :: cs => metavariableNamesIn c ++ listMetavariableNamesIn cs

end

/--
Structural equality of de Bruijn-encoded expressions, modelling the function
equal() of de-bruijn.js, imported by constraint.js as deBruijnEquals.
Modelled from the spec: after encoding, alpha-equivalence is structural
equality, and equality ignores only the pretty-printing attributes (original
bound-variable names), which our model does not carry; hence it is the
structural comparison.
-/
def deBruijnEquals (a b : Expression) : Bool := Expression.beq a b

/--
Whether an expression is an Expression Function Application.  Modelled from
the spec: an EFA is an Application whose first child is the reserved EFA head
symbol and whose second child is a metavariable, the remaining children being
the arguments (expression-functions.js is not part of the sources provided).
-/
def isAnEFA : Expression → Bool
  | .app (h :: f :: _) =>
      Expression.beq h (.sym "LDE EFA" false) && isMetavariable f
  | _ => false

/-- The argument list of an EFA: its children from index 2 onward. -/
def efaArgs : Expression → List Expression
  | .app (_ :: _ :: args) => args
  | _ => []

/-- Names of the symbols in a list of expressions, used to collect the
bound-variable names a binding expression declares. -/
def symNames (vs : List Expression) : List String :=
  vs.filterMap (fun v => match v with | .sym n _ => some n | _ => none)

mutual

/--
Whether the expression contains, beneath binders recorded in the context
argument, a metavariable occurrence whose name one of those binders bound.
Modelled from the spec: the Constraint constructor rejects patterns with a
bound metavariable, via the hasDescendantSatisfying and isFree queries of
the MathConcept class (math-concept.js is not part of the sources provided).
A binding expression's scope covers all of its children, its bound-variable
symbols included.
-/
def hasBoundMetavariableIn (bound : List String) : Expression → Bool
  | .sym n m => m && bound.contains n
  | .app cs => listHasBoundMetavariableIn bound cs
  | .bind cs => listHasBoundMetavariableIn (symNames cs.dropLast ++ bound) cs

/-- The list version of hasBoundMetavariableIn, sharing one binder context. -/
def listHasBoundMetavariableIn (bound : List String) : List Expression → Bool
  | [] => false
  | c :: cs => hasBoundMetavariableIn bound c || listHasBoundMetavariableIn bound cs

end

/-- Whether a pattern contains a bound metavariable, the condition the
Constraint constructor rejects. -/
def hasBoundMetavariable (p : Expression) : Bool := hasBoundMetavariableIn [] p

/--
A Constraint is a pattern-expression pair, as in matching/constraint.js.
Constraints are immutable; the pure embedding makes that automatic.
-/
structure Constraint where
  pattern : Expression
  expression : Expression

/--
The Constraint constructor of constraint.js: it rejects an expression that
contains a metavariable, then rejects a pattern that contains a bound
metavariable, and otherwise stores exactly the given pattern and expression.
Throwing is modelled by returning the error message.
-/
def Constraint.new (pattern expression : Expression) : Except String Constraint :=
  if containsAMetavariable expression then
    Except.error "The expression in a constraint may not contain metavariables"
  else if hasBoundMetavariable pattern then
    Except.error "The pattern may not contain bound metavariables"
  else
    Except.ok { pattern := pattern, expression := expression }

/--
Whether the pattern is a lone metavariable, modelling isAnInstantiation() of
constraint.js: the pattern is a Symbol instance carrying the metavariable
attribute.
-/
def Constraint.isAnInstantiation (c : Constraint) : Bool :=
  isMetavariable c.pattern

/--
The estimate constant of constraint.js used for the complexity contribution
of an EFA argument that contains a metavariable.
-/
def EFAComplexityEstimate : Nat := 2

/--
The complexity contribution of one EFA argument, as computed in the loop of
complexity() in constraint.js: the number of occurrences of the argument in
the constraint's expression when the argument contains no metavariable, and
the estimate constant otherwise.
-/
def argumentComplexity (arg expression : Expression) : Nat :=
  if containsAMetavariable arg then EFAComplexityEstimate
  else numberOfOccurrences arg expression

/--
The complexity classification of a Constraint, translated from complexity()
of constraint.js, in the order the code tests the cases: instantiation, then
EFA, then the metavariable-free success-or-failure case, then the children
case on the number of children.  The memoisation cache of the original is
dropped, the function being pure.
-/
def Constraint.complexity (c : Constraint) : Nat :=
  if c.isAnInstantiation then 2
  else if isAnEFA c.pattern then
    4 + ((efaArgs c.pattern).map (fun arg => argumentComplexity arg c.expression)).sum
  else if ! containsAMetavariable c.pattern then
    (if deBruijnEquals c.pattern c.expression then 1 else 0)
  else if numChildren c.pattern = numChildren c.expression then 3 else 0

/--
Whether an EFA constraint can only be matched by a constant expression
function, translated from canBeOnlyConstantEFA() of constraint.js: it reads
the memoised complexity and compares it with 4; the embedding computes that
complexity, modelling a constraint on which complexity() was already called.
-/
def Constraint.canBeOnlyConstantEFA (c : Constraint) : Bool :=
  c.complexity == 4

/--
A Substitution is a metavariable-expression pair, as in the Substitution
class of matching/substitution.js, together with its cache of the set of
metavariable names occurring in the expression; the cache is absent until
first use, which the Option models.
-/
structure Substitution where
  metavariable : Expression
  expression : Expression
  cachedNames : Option (List String)

/--
The metavariableNames() accessor of substitution.js: returns the cached name
set when present, and otherwise computes it from the expression (and caches
it; the pure embedding returns the same value either way).
-/
def Substitution.metavariableNames (s : Substitution) : List String :=
  s.cachedNames.getD (metavariableNamesIn s.expression)

mutual

/--
Simultaneous replacement, the specification's description of applying a
substitution: every subexpression structurally equal to the metavariable is
replaced by a (fresh copy of) the expression, and the replacement does not
descend into the copies it inserts, so metavariables inside them are not
re-substituted.
-/
def replaceAll (m e : Expression) : Expression → Expression
  | .sym n mv => if Expression.beq (.sym n mv) m then e else .sym n mv
  | .app cs => if Expression.beq (.app cs) m then e
      else .app (replaceAllList m e cs)
  | .bind cs => if Expression.beq (.bind cs) m then e
      else .bind (replaceAllList m e cs)

/-- Simultaneous replacement across a list of expressions. -/
def replaceAllList (m e : Expression) : List Expression → List Expression
  | [] => []
  | c :: cs => replaceAll m e c :: replaceAllList m e cs

end

/--
The applyTo() method of substitution.js on a parentless target: it collects
all descendants structurally equal to the metavariable and replaces each with
a copy of the expression, simultaneously.  The target itself is never
replaced, because replaceWith() on a parentless LogicConcept silently does
nothing, as the method's own documentation states; so only the children are
rewritten.
-/
def Substitution.applyTo (s : Substitution) : Expression → Expression
  | .sym n m => .sym n m
  | .app cs => .app (replaceAllList s.metavariable s.expression cs)
  | .bind cs => .bind (replaceAllList s.metavariable s.expression cs)

/--
The appliedTo() method of substitution.js: if the target equals the
metavariable (and is a metavariable), return a copy of the expression,
handling the corner case applyTo() cannot; otherwise copy the target and run
applyTo() on the copy.
-/
def Substitution.appliedTo (s : Substitution) (target : Expression) : Expression :=
  if Expression.beq target s.metavariable && isMetavariable target then s.expression
  else s.applyTo target

/--
One step of the substitute() method of substitution.js: skip the given
substitution when its metavariable's name is not among this substitution's
metavariable names (materialising the cache, which metavariableNames() has
just computed); otherwise replace the expression by the result of applying
it, delete the applied metavariable's name from the cached set, and add all
of the applied substitution's metavariable names.
-/
def substituteStep (s sub : Substitution) : Substitution :=
  if s.metavariableNames.contains sub.metavariable.text then
    { metavariable := s.metavariable,
      expression := Substitution.appliedTo sub s.expression,
      cachedNames := some ((s.metavariableNames.filter
        (fun n => n ≠ sub.metavariable.text)) ++ sub.metavariableNames) }
  else
    { s with cachedNames := some s.metavariableNames }

/--
The substitute() method of substitution.js: apply the given list of
substitutions to this substitution's expression, sequentially and in the
order given, maintaining the cached metavariable-name set.  The in-place
mutation of the original is modelled by returning the updated substitution.
-/
def Substitution.substitute (s : Substitution) (subs : List Substitution) : Substitution :=
  subs.foldl substituteStep s

/--
The afterSubstituting() method of constraint.js: fold the given list of
substitutions over the pattern with appliedTo(), in the order given, and
build a new Constraint from the new pattern and the unchanged expression.
Because the Constraint constructor can throw, the result is an Except.
-/
def Constraint.afterSubstituting (c : Constraint) (subs : List Substitution) :
    Except String Constraint :=
  Constraint.new
    (subs.foldl (fun p sub => Substitution.appliedTo sub p) c.pattern)
    c.expression

/--
Accuracy of a Substitution's cached name set: the set metavariableNames()
returns holds exactly the names of the metavariables occurring in the
expression.  The Substitution class establishes this at first computation
and is expected to preserve it thereafter.
-/
def namesCacheAccurate (s : Substitution) : Prop :=
  ∀ x, x ∈ s.metavariableNames ↔ x ∈ metavariableNamesIn s.expression

/--
One argument of a call to the Expression constructor of expression.js.  The
constructor is variadic and may receive values of any JavaScript type; the
embedding distinguishes arguments that are instances of the Expression class
from all other values, which it records only by a descriptive tag.
-/
inductive ConstructorArg where
  | expr (e : Expression) : ConstructorArg
  | nonExpression (tag : String) : ConstructorArg

/-- Whether a constructor argument is an instance of the Expression class,
modelling the instanceof test in the constructor of expression.js. -/
def isExpressionInstance : ConstructorArg → Bool
  | .expr _ => true
  | .nonExpression _ => false

/-- The Expression payload of a constructor argument, when it has one. -/
def argExpression : ConstructorArg → Option Expression
  | .expr e => some e
  | .nonExpression _ => none

/--
The children stored by the Expression constructor of expression.js: it
filters its argument list down to the instances of Expression and passes the
survivors to the base-class constructor, which (modelled from the spec: the
expression model's constructors build a node from an ordered child sequence;
math-concept.js is not part of the sources provided) stores them, in order,
as the children of the new node.  The function is total: no argument list
makes it fail.
-/
def expressionConstructorChildren (args : List ConstructorArg) : List Expression :=
  (args.filter (fun a => isExpressionInstance a)).filterMap argExpression

/--
The claim's description of the same computation, written from the spec's
words rather than from the code: exactly those arguments that are instances
of Expression, kept in their original order.
-/
def expressionArgumentsOf (args : List ConstructorArg) : List Expression :=
  args.filterMap argExpression

/-! Theorems begin here: first generic facts about the embedding, then the
claim theorems with their witnesses. -/

/--
A structural induction principle for expressions that hands the inductive
hypothesis to every member of a child list.
-/
theorem Expression.my_induction (P : Expression → Prop)
    (hsym : ∀ n m, P (.sym n m))
    (happ : ∀ cs, (∀ c ∈ cs, P c) → P (.app cs))
    (hbind : ∀ cs, (∀ c ∈ cs, P c) → P (.bind cs)) : ∀ t, P t
  | .sym n m => hsym n m
  | .app cs => happ cs (fun c hc => Expression.my_induction P hsym happ hbind c)
  | .bind cs => hbind cs (fun c hc => Expression.my_induction P hsym happ hbind c)
termination_by t => sizeOf t
decreasing_by
  all_goals simp_wf
  all_goals
    have hlt : sizeOf c < sizeOf cs := List.sizeOf_lt_of_mem hc
    omega

theorem Expression.beqList_iff : ∀ cs cs2 : List Expression,
    (∀ c ∈ cs, ∀ b, Expression.beq c b = true ↔ c = b) →
    (Expression.beqList cs cs2 = true ↔ cs = cs2) := by
  intro cs
  induction cs with
  | nil => intro cs2 _; cases cs2 <;> simp [Expression.beqList]
  | cons c cs tail_ih =>
    intro cs2 ih
    cases cs2 with
    | nil => simp [Expression.beqList]
    | cons c2 cs2 =>
      have h1 := ih c (by simp)
      have h2 : ∀ x ∈ cs, ∀ b, Expression.beq x b = true ↔ x = b :=
        fun x hx b => ih x (by simp [hx]) b
      simp [Expression.beqList, h1, tail_ih cs2 h2]

/-- Structural comparison agrees with propositional equality. -/
theorem Expression.beq_iff : ∀ a b : Expression, Expression.beq a b = true ↔ a = b := by
  intro a
  induction a using Expression.my_induction with
  | hsym n m =>
    intro b; cases b <;> simp [Expression.beq]
  | happ cs ih =>
    intro b
    cases b with
    | sym n m => simp [Expression.beq]
    | app cs2 => simpa [Expression.beq] using Expression.beqList_iff cs cs2 ih
    | bind cs2 => simp [Expression.beq]
  | hbind cs ih =>
    intro b
    cases b with
    | sym n m => simp [Expression.beq]
    | app cs2 => simp [Expression.beq]
    | bind cs2 => simpa [Expression.beq] using Expression.beqList_iff cs cs2 ih

instance : DecidableEq Expression :=
  fun a b => decidable_of_iff (Expression.beq a b = true) (Expression.beq_iff a b)

theorem Expression.beq_refl (a : Expression) : Expression.beq a a = true :=
  (Expression.beq_iff a a).mpr rfl

theorem listContainsAMetavariable_iff (cs : List Expression) :
    listContainsAMetavariable cs = true ↔ ∃ c ∈ cs, containsAMetavariable c = true := by
  induction cs with
  | nil => simp [listContainsAMetavariable]
  | cons c cs ih => simp [listContainsAMetavariable, ih]

theorem listNumberOfOccurrences_eq_zero (sub : Expression) (cs : List Expression) :
    listNumberOfOccurrences sub cs = 0 ↔ ∀ c ∈ cs, numberOfOccurrences sub c = 0 := by
  induction cs with
  | nil => simp [listNumberOfOccurrences]
  | cons c cs ih => simp [listNumberOfOccurrences, ih]

theorem listNumberOfOccurrences_ne_zero (sub : Expression) (cs : List Expression) :
    listNumberOfOccurrences sub cs ≠ 0 ↔ ∃ c ∈ cs, numberOfOccurrences sub c ≠ 0 := by
  rw [Ne, listNumberOfOccurrences_eq_zero]
  push_neg
  rfl

theorem mem_listMetavariableNamesIn (x : String) (cs : List Expression) :
    x ∈ listMetavariableNamesIn cs ↔ ∃ c ∈ cs, x ∈ metavariableNamesIn c := by
  induction cs with
  | nil => simp [listMetavariableNamesIn]
  | cons c cs ih => simp [listMetavariableNamesIn, ih]

theorem replaceAllList_eq_map (m e : Expression) (cs : List Expression) :
    replaceAllList m e cs = cs.map (replaceAll m e) := by
  induction cs with
  | nil => simp [replaceAllList]
  | cons c cs ih => simp [replaceAllList, ih]

theorem isMetavariable_elim {m : Expression} (h : isMetavariable m = true) :
    ∃ n, m = .sym n true := by
  cases m with
  | sym n mv =>
    simp [isMetavariable] at h
    exact ⟨n, by rw [h]⟩
  | app cs => simp [isMetavariable] at h
  | bind cs => simp [isMetavariable] at h

theorem mem_metavariableNamesIn_iff (x : String) :
    ∀ t, x ∈ metavariableNamesIn t ↔ numberOfOccurrences (.sym x true) t ≠ 0 := by
  intro t
  induction t using Expression.my_induction with
  | hsym n m =>
    simp [metavariableNamesIn, numberOfOccurrences, Expression.beq]
    cases m <;> simp [eq_comm]
  | happ cs ih =>
    have hb : Expression.beq (.app cs) (.sym x true) = false := rfl
    simp only [metavariableNamesIn, numberOfOccurrences, hb, Bool.false_eq_true,
      if_false, zero_add, mem_listMetavariableNamesIn, listNumberOfOccurrences_ne_zero]
    exact ⟨fun ⟨c, hc, hx⟩ => ⟨c, hc, (ih c hc).mp hx⟩,
           fun ⟨c, hc, hx⟩ => ⟨c, hc, (ih c hc).mpr hx⟩⟩
  | hbind cs ih =>
    have hb : Expression.beq (.bind cs) (.sym x true) = false := rfl
    simp only [metavariableNamesIn, numberOfOccurrences, hb, Bool.false_eq_true,
      if_false, zero_add, mem_listMetavariableNamesIn, listNumberOfOccurrences_ne_zero]
    exact ⟨fun ⟨c, hc, hx⟩ => ⟨c, hc, (ih c hc).mp hx⟩,
           fun ⟨c, hc, hx⟩ => ⟨c, hc, (ih c hc).mpr hx⟩⟩

theorem replaceAll_of_not_occurs (m e : Expression) :
    ∀ t, numberOfOccurrences m t = 0 → replaceAll m e t = t := by
  intro t
  induction t using Expression.my_induction with
  | hsym n mv =>
    intro h
    simp [numberOfOccurrences] at h
    simp [replaceAll, h]
  | happ cs ih =>
    intro h
    simp [numberOfOccurrences, Nat.add_eq_zero] at h
    obtain ⟨h1, h2⟩ := h
    rw [listNumberOfOccurrences_eq_zero] at h2
    simp only [replaceAll, h1, Bool.false_eq_true, if_false, replaceAllList_eq_map]
    congr 1
    calc cs.map (replaceAll m e) = cs.map id :=
          List.map_congr_left (fun c hc => ih c hc (h2 c hc))
      _ = cs := List.map_id cs
  | hbind cs ih =>
    intro h
    simp [numberOfOccurrences, Nat.add_eq_zero] at h
    obtain ⟨h1, h2⟩ := h
    rw [listNumberOfOccurrences_eq_zero] at h2
    simp only [replaceAll, h1, Bool.false_eq_true, if_false, replaceAllList_eq_map]
    congr 1
    calc cs.map (replaceAll m e) = cs.map id :=
          List.map_congr_left (fun c hc => ih c hc (h2 c hc))
      _ = cs := List.map_id cs

theorem beq_app_sym (cs : List Expression) (n : String) (b : Bool) :
    Expression.beq (.app cs) (.sym n b) = false := rfl

theorem beq_bind_sym (cs : List Expression) (n : String) (b : Bool) :
    Expression.beq (.bind cs) (.sym n b) = false := rfl

theorem numberOfOccurrences_replaceAll (nm : String) (e : Expression)
    (he : numberOfOccurrences (.sym nm true) e = 0) :
    ∀ t, numberOfOccurrences (.sym nm true) (replaceAll (.sym nm true) e t) = 0 := by
  intro t
  induction t using Expression.my_induction with
  | hsym n mv =>
    by_cases hb : Expression.beq (.sym n mv) (.sym nm true) = true
    · simp [replaceAll, hb, he]
    · simp only [Bool.not_eq_true] at hb
      simp [replaceAll, hb, numberOfOccurrences]
  | happ cs ih =>
    simp only [replaceAll, beq_app_sym, Bool.false_eq_true, if_false,
      numberOfOccurrences, zero_add, replaceAllList_eq_map]
    rw [listNumberOfOccurrences_eq_zero]
    intro c hc
    obtain ⟨c0, hc0, rfl⟩ := List.mem_map.mp hc
    exact ih c0 hc0
  | hbind cs ih =>
    simp only [replaceAll, beq_bind_sym, Bool.false_eq_true, if_false,
      numberOfOccurrences, zero_add, replaceAllList_eq_map]
    rw [listNumberOfOccurrences_eq_zero]
    intro c hc
    obtain ⟨c0, hc0, rfl⟩ := List.mem_map.mp hc
    exact ih c0 hc0

theorem mem_metavariableNamesIn_replaceAll (nm : String) (e : Expression) :
    ∀ t x, x ∈ metavariableNamesIn (replaceAll (.sym nm true) e t) ↔
      ((x ∈ metavariableNamesIn t ∧ x ≠ nm) ∨
       (numberOfOccurrences (.sym nm true) t ≠ 0 ∧ x ∈ metavariableNamesIn e)) := by
  intro t
  induction t using Expression.my_induction with
  | hsym n mv =>
    intro x
    by_cases hb : Expression.beq (.sym n mv) (.sym nm true) = true
    · have hnm : n = nm ∧ mv = true := by simpa [Expression.beq] using hb
      obtain ⟨rfl, rfl⟩ := hnm
      simp [replaceAll, hb, metavariableNamesIn, numberOfOccurrences]
    · have hnum : numberOfOccurrences (.sym nm true) (.sym n mv) = 0 := by
        simp [numberOfOccurrences, hb]
      have hne : ¬ (n = nm ∧ mv = true) := by
        intro hcon
        exact hb (by simp [Expression.beq, hcon.1, hcon.2])
      simp only [Bool.not_eq_true] at hb
      simp only [replaceAll, hb, Bool.false_eq_true, if_false, hnum, ne_eq,
        not_true_eq_false, false_and, or_false, metavariableNamesIn]
      cases mv with
      | false => simp
      | true =>
        have : n ≠ nm := fun hcon => hne ⟨hcon, rfl⟩
        simp only [if_true, List.mem_singleton]
        constructor
        · intro hx
          exact ⟨hx, by rw [hx]; exact this⟩
        · intro hx
          exact hx.1
  | happ cs ih =>
    intro x
    have hb : Expression.beq (.app cs) (.sym nm true) = false := rfl
    simp only [replaceAll, hb, Bool.false_eq_true, if_false, metavariableNamesIn,
      mem_listMetavariableNamesIn, replaceAllList_eq_map, numberOfOccurrences,
      zero_add, listNumberOfOccurrences_ne_zero, List.mem_map]
    constructor
    · rintro ⟨c, ⟨c0, hc0, rfl⟩, hx⟩
      rcases (ih c0 hc0 x).mp hx with ⟨h1, h2⟩ | ⟨h1, h2⟩
      · exact Or.inl ⟨⟨c0, hc0, h1⟩, h2⟩
      · exact Or.inr ⟨⟨c0, hc0, h1⟩, h2⟩
    · rintro (⟨⟨c0, hc0, h1⟩, h2⟩ | ⟨⟨c0, hc0, h1⟩, h2⟩)
      · exact ⟨replaceAll (.sym nm true) e c0, ⟨c0, hc0, rfl⟩,
          (ih c0 hc0 x).mpr (Or.inl ⟨h1, h2⟩)⟩
      · exact ⟨replaceAll (.sym nm true) e c0, ⟨c0, hc0, rfl⟩,
          (ih c0 hc0 x).mpr (Or.inr ⟨h1, h2⟩)⟩
  | hbind cs ih =>
    intro x
    have hb : Expression.beq (.bind cs) (.sym nm true) = false := rfl
    simp only [replaceAll, hb, Bool.false_eq_true, if_false, metavariableNamesIn,
      mem_listMetavariableNamesIn, replaceAllList_eq_map, numberOfOccurrences,
      zero_add, listNumberOfOccurrences_ne_zero, List.mem_map]
    constructor
    · rintro ⟨c, ⟨c0, hc0, rfl⟩, hx⟩
      rcases (ih c0 hc0 x).mp hx with ⟨h1, h2⟩ | ⟨h1, h2⟩
      · exact Or.inl ⟨⟨c0, hc0, h1⟩, h2⟩
      · exact Or.inr ⟨⟨c0, hc0, h1⟩, h2⟩
    · rintro (⟨⟨c0, hc0, h1⟩, h2⟩ | ⟨⟨c0, hc0, h1⟩, h2⟩)
      · exact ⟨replaceAll (.sym nm true) e c0, ⟨c0, hc0, rfl⟩,
          (ih c0 hc0 x).mpr (Or.inl ⟨h1, h2⟩)⟩
      · exact ⟨replaceAll (.sym nm true) e c0, ⟨c0, hc0, rfl⟩,
          (ih c0 hc0 x).mpr (Or.inr ⟨h1, h2⟩)⟩

theorem appliedTo_eq_replaceAll_aux (s : Substitution)
    (hm : isMetavariable s.metavariable = true) :
    ∀ t, s.appliedTo t = replaceAll s.metavariable s.expression t := by
  obtain ⟨nm, hmv⟩ := isMetavariable_elim hm
  intro t
  cases t with
  | sym n mv =>
    by_cases hb : Expression.beq (.sym n mv) s.metavariable = true
    · have hmeta : isMetavariable (.sym n mv) = true := by
        rw [hmv] at hb
        have h2 : n = nm ∧ mv = true := by simpa [Expression.beq] using hb
        simp [isMetavariable, h2.2]
      simp [Substitution.appliedTo, hb, hmeta, replaceAll]
    · simp only [Bool.not_eq_true] at hb
      simp [Substitution.appliedTo, hb, Substitution.applyTo, replaceAll]
  | app cs =>
    have hb : Expression.beq (.app cs) s.metavariable = false := by rw [hmv]; rfl
    simp [Substitution.appliedTo, hb, Substitution.applyTo, replaceAll, isMetavariable]
  | bind cs =>
    have hb : Expression.beq (.bind cs) s.metavariable = false := by rw [hmv]; rfl
    simp [Substitution.appliedTo, hb, Substitution.applyTo, replaceAll, isMetavariable]

theorem isMetavariable_eq_false_of_isAnEFA {p : Expression} (h : isAnEFA p = true) :
    isMetavariable p = false := by
  cases p with
  | sym n m => simp [isAnEFA] at h
  | app cs => rfl
  | bind cs => simp [isAnEFA] at h

theorem complexity_of_EFA (p e : Expression) (h : isAnEFA p = true) :
    Constraint.complexity ⟨p, e⟩ =
      4 + ((efaArgs p).map (fun arg => argumentComplexity arg e)).sum := by
  have hinst : Constraint.isAnInstantiation ⟨p, e⟩ = false := by
    simp [Constraint.isAnInstantiation, isMetavariable_eq_false_of_isAnEFA h]
  simp [Constraint.complexity, hinst, h]

/--
Claim C1: for every Constraint (p,e), complexity() classifies by first match
in the given order: a lone metavariable pattern is Instantiation (value 2);
otherwise an EFA pattern gets the EFA class (value at least 4); otherwise a
metavariable-free pattern gets Success (1) when it is de Bruijn-structurally
equal to the expression and Failure (0) otherwise; otherwise the result is
Children (3) when pattern and expression have the same number of children
and Failure (0) otherwise.
-/
theorem complexity_classification_by_first_match (p e : Expression) :
    (isMetavariable p = true → Constraint.complexity ⟨p, e⟩ = 2)
    ∧ (isMetavariable p = false → isAnEFA p = true →
        4 ≤ Constraint.complexity ⟨p, e⟩)
    ∧ (isMetavariable p = false → isAnEFA p = false →
        containsAMetavariable p = false →
        Constraint.complexity ⟨p, e⟩ = if deBruijnEquals p e then 1 else 0)
    ∧ (isMetavariable p = false → isAnEFA p = false →
        containsAMetavariable p = true →
        Constraint.complexity ⟨p, e⟩ =
          if numChildren p = numChildren e then 3 else 0) := by
  refine ⟨?_, ?_, ?_, ?_⟩
  · intro h1
    simp [Constraint.complexity, Constraint.isAnInstantiation, h1]
  · intro h1 h2
    rw [complexity_of_EFA p e h2]
    exact Nat.le_add_right 4 _
  · intro h1 h2 h3
    simp [Constraint.complexity, Constraint.isAnInstantiation, h1, h2, h3]
  · intro h1 h2 h3
    simp [Constraint.complexity, Constraint.isAnInstantiation, h1, h2, h3]

/-- Witness for C1, applying the classification at one concrete constraint of
each of the four shapes. -/
theorem complexity_classification_by_first_match_witness :
    Constraint.complexity ⟨.sym "A" true, .sym "x" false⟩ = 2
    ∧ 4 ≤ Constraint.complexity
        ⟨.app [.sym "LDE EFA" false, .sym "F" true, .sym "y" false], .sym "y" false⟩
    ∧ Constraint.complexity ⟨.sym "x" false, .sym "x" false⟩ =
        (if deBruijnEquals (.sym "x" false) (.sym "x" false) then 1 else 0)
    ∧ Constraint.complexity ⟨.app [.sym "f" false, .sym "A" true],
          .app [.sym "f" false, .sym "x" false]⟩ =
        (if numChildren (.app [.sym "f" false, .sym "A" true])
            = numChildren (.app [.sym "f" false, .sym "x" false]) then 3 else 0) :=
  ⟨(complexity_classification_by_first_match _ _).1 (by decide),
   (complexity_classification_by_first_match _ _).2.1 (by decide) (by decide),
   (complexity_classification_by_first_match _ _).2.2.1
     (by decide) (by decide) (by decide),
   (complexity_classification_by_first_match _ _).2.2.2
     (by decide) (by decide) (by decide)⟩

/--
Claim C2: for every Constraint whose pattern is an EFA, complexity() returns
4 plus the sum, over the EFA's arguments, of the number of occurrences of
the argument in the constraint's expression when the argument contains no
metavariable, and of the fixed estimate constant EFAComplexityEstimate = 2
when it does.
-/
theorem efa_complexity_value (p e : Expression) (h : isAnEFA p = true) :
    Constraint.complexity ⟨p, e⟩ =
      4 + ((efaArgs p).map (fun arg =>
        if containsAMetavariable arg then EFAComplexityEstimate
        else numberOfOccurrences arg e)).sum
    ∧ EFAComplexityEstimate = 2 := by
  constructor
  · rw [complexity_of_EFA p e h]
    simp [argumentComplexity]
  · rfl

/-- Witness for C2, at the EFA constraint whose pattern applies F to the
arguments y (closed, occurring twice in the expression) and B (a pattern
containing a metavariable). -/
theorem efa_complexity_value_witness :
    isAnEFA (.app [.sym "LDE EFA" false, .sym "F" true,
      .sym "y" false, .sym "B" true]) = true
    ∧ (Constraint.complexity ⟨.app [.sym "LDE EFA" false, .sym "F" true,
          .sym "y" false, .sym "B" true],
          .app [.sym "g" false, .sym "y" false, .sym "y" false]⟩ =
        4 + ((efaArgs (.app [.sym "LDE EFA" false, .sym "F" true,
          .sym "y" false, .sym "B" true])).map (fun arg =>
            if containsAMetavariable arg then EFAComplexityEstimate
            else numberOfOccurrences arg
              (.app [.sym "g" false, .sym "y" false, .sym "y" false]))).sum
        ∧ EFAComplexityEstimate = 2) :=
  ⟨by decide, efa_complexity_value _ _ (by decide)⟩

/--
Claim C5: for every EFA Constraint on which complexity() has been computed,
canBeOnlyConstantEFA() returns true exactly when every argument of the EFA
contains no metavariable and has zero occurrences in the constraint's
expression, equivalently exactly when the complexity is 4.
-/
theorem canBeOnlyConstantEFA_characterization (p e : Expression)
    (h : isAnEFA p = true) :
    (Constraint.canBeOnlyConstantEFA ⟨p, e⟩ = true ↔
      ∀ arg ∈ efaArgs p, containsAMetavariable arg = false
        ∧ numberOfOccurrences arg e = 0)
    ∧ (Constraint.canBeOnlyConstantEFA ⟨p, e⟩ = true ↔
        Constraint.complexity ⟨p, e⟩ = 4) := by
  have hbeq : (Constraint.canBeOnlyConstantEFA ⟨p, e⟩ = true) ↔
      Constraint.complexity ⟨p, e⟩ = 4 := by
    simp [Constraint.canBeOnlyConstantEFA]
  refine ⟨?_, hbeq⟩
  rw [hbeq, complexity_of_EFA p e h]
  constructor
  · intro hsum arg harg
    have hs : ((efaArgs p).map (fun arg => argumentComplexity arg e)).sum = 0 := by
      omega
    rw [List.sum_eq_zero_iff] at hs
    have hzero := hs _ (List.mem_map_of_mem _ harg)
    by_cases hc : containsAMetavariable arg = true
    · simp [argumentComplexity, hc, EFAComplexityEstimate] at hzero
    · simp only [Bool.not_eq_true] at hc
      refine ⟨hc, ?_⟩
      simpa [argumentComplexity, hc] using hzero
  · intro hall
    have hs : ((efaArgs p).map (fun arg => argumentComplexity arg e)).sum = 0 := by
      rw [List.sum_eq_zero_iff]
      intro x hx
      obtain ⟨arg, harg, rfl⟩ := List.mem_map.mp hx
      obtain ⟨h1, h2⟩ := hall arg harg
      simp [argumentComplexity, h1, h2]
    omega

/-- Witness for C5, at the EFA constraint F(y) against the expression z, in
which the only argument is closed and absent. -/
theorem canBeOnlyConstantEFA_characterization_witness :
    isAnEFA (.app [.sym "LDE EFA" false, .sym "F" true, .sym "y" false]) = true
    ∧ ((Constraint.canBeOnlyConstantEFA
          ⟨.app [.sym "LDE EFA" false, .sym "F" true, .sym "y" false],
           .sym "z" false⟩ = true ↔
        ∀ arg ∈ efaArgs (.app [.sym "LDE EFA" false, .sym "F" true, .sym "y" false]),
          containsAMetavariable arg = false
          ∧ numberOfOccurrences arg (.sym "z" false) = 0)
      ∧ (Constraint.canBeOnlyConstantEFA
          ⟨.app [.sym "LDE EFA" false, .sym "F" true, .sym "y" false],
           .sym "z" false⟩ = true ↔
        Constraint.complexity
          ⟨.app [.sym "LDE EFA" false, .sym "F" true, .sym "y" false],
           .sym "z" false⟩ = 4)) :=
  ⟨by decide, canBeOnlyConstantEFA_characterization _ _ (by decide)⟩

/--
Claim C6: the Constraint constructor throws exactly when the expression
contains a metavariable or the pattern contains a bound metavariable, and
when it does not throw, the constructed Constraint holds exactly the given
pattern and expression.
-/
theorem constraint_construction_error_iff (p e : Expression) :
    ((∃ msg, Constraint.new p e = Except.error msg) ↔
      (containsAMetavariable e = true ∨ hasBoundMetavariable p = true))
    ∧ (∀ c, Constraint.new p e = Except.ok c →
        c.pattern = p ∧ c.expression = e) := by
  constructor
  · constructor
    · rintro ⟨msg, hmsg⟩
      by_contra hcon
      push_neg at hcon
      obtain ⟨h1, h2⟩ := hcon
      simp only [Bool.not_eq_true] at h1 h2
      simp [Constraint.new, h1, h2] at hmsg
    · intro h
      rcases h with h | h
      · exact ⟨"The expression in a constraint may not contain metavariables",
          by simp [Constraint.new, h]⟩
      · by_cases hce : containsAMetavariable e = true
        · exact ⟨"The expression in a constraint may not contain metavariables",
            by simp [Constraint.new, hce]⟩
        · simp only [Bool.not_eq_true] at hce
          exact ⟨"The pattern may not contain bound metavariables",
            by simp [Constraint.new, hce, h]⟩
  · intro c hc
    by_cases h1 : containsAMetavariable e = true
    · simp [Constraint.new, h1] at hc
    · simp only [Bool.not_eq_true] at h1
      by_cases h2 : hasBoundMetavariable p = true
      · simp [Constraint.new, h1, h2] at hc
      · simp only [Bool.not_eq_true] at h2
        simp [Constraint.new, h1, h2] at hc
        rw [← hc]
        exact ⟨rfl, rfl⟩

/-- Witness for C6, at a pattern that is a free metavariable and a closed
expression, for which construction succeeds and stores both parts. -/
theorem constraint_construction_error_iff_witness :
    ((∃ msg, Constraint.new (.sym "A" true) (.sym "x" false) = Except.error msg) ↔
      (containsAMetavariable (.sym "x" false) = true
        ∨ hasBoundMetavariable (.sym "A" true) = true))
    ∧ (({ pattern := .sym "A" true, expression := .sym "x" false } : Constraint).pattern
        = .sym "A" true
      ∧ ({ pattern := .sym "A" true, expression := .sym "x" false } : Constraint).expression
        = .sym "x" false) :=
  ⟨(constraint_construction_error_iff _ _).1,
   (constraint_construction_error_iff (.sym "A" true) (.sym "x" false)).2 _ rfl⟩

/--
Claim C8: afterSubstituting() applies the given substitutions only to the
pattern side: whenever it returns a Constraint, that Constraint's expression
is the original constraint's expression unchanged, and its pattern is the
fold of appliedTo() over the original pattern.  The original constraint is
untouched, which the pure embedding makes automatic.
-/
theorem afterSubstituting_keeps_expression (c : Constraint)
    (subs : List Substitution) (c2 : Constraint)
    (h : Constraint.afterSubstituting c subs = Except.ok c2) :
    c2.expression = c.expression
    ∧ c2.pattern = subs.foldl (fun p sub => Substitution.appliedTo sub p) c.pattern := by
  unfold Constraint.afterSubstituting Constraint.new at h
  by_cases h1 : containsAMetavariable c.expression = true
  · simp [h1] at h
  · simp only [Bool.not_eq_true] at h1
    by_cases h2 : hasBoundMetavariable
        (subs.foldl (fun p sub => Substitution.appliedTo sub p) c.pattern) = true
    · simp [h1, h2] at h
    · simp only [Bool.not_eq_true] at h2
      simp [h1, h2] at h
      rw [← h]
      exact ⟨rfl, rfl⟩

/-- Witness for C8: substituting y for the metavariable A in the constraint
(A, x) yields the constraint (y, x), whose expression is unchanged. -/
theorem afterSubstituting_keeps_expression_witness :
    ({ pattern := .sym "y" false, expression := .sym "x" false } : Constraint).expression
      = ({ pattern := .sym "A" true, expression := .sym "x" false } : Constraint).expression
    ∧ ({ pattern := .sym "y" false, expression := .sym "x" false } : Constraint).pattern
      = [(⟨.sym "A" true, .sym "y" false, none⟩ : Substitution)].foldl
          (fun p sub => Substitution.appliedTo sub p)
          ({ pattern := .sym "A" true, expression := .sym "x" false } : Constraint).pattern :=
  afterSubstituting_keeps_expression
    { pattern := .sym "A" true, expression := .sym "x" false }
    [⟨.sym "A" true, .sym "y" false, none⟩]
    { pattern := .sym "y" false, expression := .sym "x" false }
    rfl

/--
Claim C10: the Expression constructor keeps, as the children of the new
node, exactly those of its arguments that are instances of the Expression
class, in their original order; all other arguments are silently discarded,
and no argument list makes the constructor throw (the embedding is a total
function).
-/
theorem expression_constructor_filters_children (args : List ConstructorArg) :
    expressionConstructorChildren args = expressionArgumentsOf args := by
  induction args with
  | nil => rfl
  | cons a args ih =>
    cases a with
    | expr e0 =>
      simp only [expressionConstructorChildren, expressionArgumentsOf,
        List.filter_cons, List.filterMap_cons, isExpressionInstance,
        argExpression, if_true] at ih ⊢
      rw [ih]
    | nonExpression tag =>
      simp only [expressionConstructorChildren, expressionArgumentsOf,
        List.filter_cons, List.filterMap_cons, isExpressionInstance,
        argExpression, Bool.false_eq_true, if_false] at ih ⊢
      rw [ih]

/--
Claim C4: for every Substitution (M,e) whose M is a metavariable symbol, as
the Substitution constructor guarantees, appliedTo() computes exactly the
simultaneous replacement: a copy of the target in which every subexpression
structurally equal to M has been replaced by a copy of e, with metavariables
inside the inserted copies not themselves re-substituted by the same call,
which is how replaceAll is defined.
-/
theorem appliedTo_is_simultaneous_replacement (s : Substitution) (t : Expression)
    (hm : isMetavariable s.metavariable = true) :
    s.appliedTo t = replaceAll s.metavariable s.expression t :=
  appliedTo_eq_replaceAll_aux s hm t

/-- Witness for C4, replacing the metavariable M by y inside f(M, g(M)). -/
theorem appliedTo_is_simultaneous_replacement_witness :
    isMetavariable (Expression.sym "M" true) = true
    ∧ Substitution.appliedTo ⟨.sym "M" true, .sym "y" false, none⟩
        (.app [.sym "f" false, .sym "M" true, .app [.sym "g" false, .sym "M" true]])
      = replaceAll (.sym "M" true) (.sym "y" false)
        (.app [.sym "f" false, .sym "M" true, .app [.sym "g" false, .sym "M" true]]) :=
  ⟨by decide,
   appliedTo_is_simultaneous_replacement ⟨.sym "M" true, .sym "y" false, none⟩
     (.app [.sym "f" false, .sym "M" true, .app [.sym "g" false, .sym "M" true]])
     (by decide)⟩

/--
Claim C9: for every Substitution (M,e) and every parentless target that is
structurally equal to M, the two application methods disagree on exactly
this corner case: applyTo() leaves the target unchanged, because
replaceWith() on a parentless LogicConcept does nothing, whereas appliedTo()
returns a copy of e.
-/
theorem applyTo_appliedTo_parentless_disagreement (s : Substitution)
    (t : Expression) (hm : isMetavariable s.metavariable = true)
    (ht : t = s.metavariable) :
    s.applyTo t = t ∧ s.appliedTo t = s.expression := by
  obtain ⟨nm, hmv⟩ := isMetavariable_elim hm
  subst ht
  constructor
  · rw [hmv]
    rfl
  · simp [Substitution.appliedTo, Expression.beq_refl, hm]

/-- Witness for C9, at the substitution (M, f(M)) applied to the lone
metavariable M itself. -/
theorem applyTo_appliedTo_parentless_disagreement_witness :
    isMetavariable
      (Substitution.metavariable ⟨.sym "M" true, .app [.sym "f" false, .sym "M" true], none⟩)
      = true
    ∧ Substitution.applyTo ⟨.sym "M" true, .app [.sym "f" false, .sym "M" true], none⟩
        (.sym "M" true) = .sym "M" true
    ∧ Substitution.appliedTo ⟨.sym "M" true, .app [.sym "f" false, .sym "M" true], none⟩
        (.sym "M" true) = .app [.sym "f" false, .sym "M" true] :=
  ⟨by decide,
   (applyTo_appliedTo_parentless_disagreement
      ⟨.sym "M" true, .app [.sym "f" false, .sym "M" true], none⟩
      (.sym "M" true) (by decide) (by decide)).1,
   (applyTo_appliedTo_parentless_disagreement
      ⟨.sym "M" true, .app [.sym "f" false, .sym "M" true], none⟩
      (.sym "M" true) (by decide) (by decide)).2⟩

/--
Counterexample to claim C3 as stated: for the Substitution (M, f(M)), whose
expression contains its own metavariable, applying it twice to the lone
metavariable M yields f(f(M)), not the single-application result f(M); so
appliedTo() is not idempotent without restriction on the substitution's
expression.
-/
theorem appliedTo_not_idempotent_counterexample :
    Substitution.appliedTo ⟨.sym "M" true, .app [.sym "f" false, .sym "M" true], none⟩
        (Substitution.appliedTo
          ⟨.sym "M" true, .app [.sym "f" false, .sym "M" true], none⟩
          (.sym "M" true))
      ≠ Substitution.appliedTo
          ⟨.sym "M" true, .app [.sym "f" false, .sym "M" true], none⟩
          (.sym "M" true) := by decide

/--
Claim C3 as amended: applying a Substitution twice to any expression yields
the same result as applying it once, provided the substitution's
metavariable is a metavariable symbol (as the constructor guarantees) and
does not occur in the substitution's own expression.
-/
theorem appliedTo_idempotent_without_self_occurrence (s : Substitution)
    (t : Expression) (hm : isMetavariable s.metavariable = true)
    (he : numberOfOccurrences s.metavariable s.expression = 0) :
    s.appliedTo (s.appliedTo t) = s.appliedTo t := by
  obtain ⟨nm, hmv⟩ := isMetavariable_elim hm
  rw [appliedTo_eq_replaceAll_aux s hm, appliedTo_eq_replaceAll_aux s hm]
  rw [hmv] at he ⊢
  exact replaceAll_of_not_occurs _ _ _
    (numberOfOccurrences_replaceAll nm s.expression he t)

/-- Witness for the amended C3, at the substitution (M, f(y)) applied twice
to g(M, M). -/
theorem appliedTo_idempotent_without_self_occurrence_witness :
    isMetavariable
      (Substitution.metavariable
        ⟨.sym "M" true, .app [.sym "f" false, .sym "y" false], none⟩) = true
    ∧ numberOfOccurrences (.sym "M" true) (.app [.sym "f" false, .sym "y" false]) = 0
    ∧ Substitution.appliedTo ⟨.sym "M" true, .app [.sym "f" false, .sym "y" false], none⟩
        (Substitution.appliedTo
          ⟨.sym "M" true, .app [.sym "f" false, .sym "y" false], none⟩
          (.app [.sym "g" false, .sym "M" true, .sym "M" true]))
      = Substitution.appliedTo
          ⟨.sym "M" true, .app [.sym "f" false, .sym "y" false], none⟩
          (.app [.sym "g" false, .sym "M" true, .sym "M" true]) :=
  ⟨by decide, by decide,
   appliedTo_idempotent_without_self_occurrence
     ⟨.sym "M" true, .app [.sym "f" false, .sym "y" false], none⟩
     (.app [.sym "g" false, .sym "M" true, .sym "M" true])
     (by decide) (by decide)⟩

theorem substituteStep_spec (s sub : Substitution)
    (hs : namesCacheAccurate s)
    (hm : isMetavariable sub.metavariable = true)
    (hsub : namesCacheAccurate sub) :
    namesCacheAccurate (substituteStep s sub)
    ∧ (substituteStep s sub).expression = Substitution.appliedTo sub s.expression := by
  obtain ⟨nm, hmv⟩ := isMetavariable_elim hm
  have htext : sub.metavariable.text = nm := by rw [hmv]; rfl
  by_cases hc : s.metavariableNames.contains sub.metavariable.text = true
  · have hmem : nm ∈ s.metavariableNames := by
      rw [htext] at hc
      simpa using hc
    have hocc : numberOfOccurrences (.sym nm true) s.expression ≠ 0 :=
      (mem_metavariableNamesIn_iff nm s.expression).mp ((hs nm).mp hmem)
    have e1 : substituteStep s sub =
        ⟨s.metavariable, Substitution.appliedTo sub s.expression,
          some ((s.metavariableNames.filter (fun n => n ≠ sub.metavariable.text))
            ++ sub.metavariableNames)⟩ := by
      unfold substituteStep
      rw [if_pos hc]
    refine ⟨?_, by rw [e1]⟩
    intro x
    rw [e1]
    have hsx := hs x
    have hsubx := hsub x
    simp only [namesCacheAccurate, Substitution.metavariableNames] at hsx hsubx ⊢
    simp only [Option.getD_some]
    rw [appliedTo_eq_replaceAll_aux sub hm, hmv,
      mem_metavariableNamesIn_replaceAll nm sub.expression s.expression x]
    simp only [List.mem_append, List.mem_filter, decide_eq_true_eq, ne_eq,
      Expression.text]
    constructor
    · rintro (⟨hxs, hxnm⟩ | hxsub)
      · exact Or.inl ⟨hsx.mp hxs, hxnm⟩
      · exact Or.inr ⟨hocc, hsubx.mp hxsub⟩
    · rintro (⟨hxs, hxnm⟩ | ⟨h0, hxsub⟩)
      · exact Or.inl ⟨hsx.mpr hxs, hxnm⟩
      · exact Or.inr (hsubx.mpr hxsub)
  · have hnotmem : nm ∉ s.metavariableNames := by
      rw [htext] at hc
      intro hmem
      exact hc (by simpa using hmem)
    have hocc0 : numberOfOccurrences (.sym nm true) s.expression = 0 := by
      by_contra hocc
      exact hnotmem ((hs nm).mpr
        ((mem_metavariableNamesIn_iff nm s.expression).mpr hocc))
    have happ : Substitution.appliedTo sub s.expression = s.expression := by
      rw [appliedTo_eq_replaceAll_aux sub hm, hmv]
      exact replaceAll_of_not_occurs _ _ _ hocc0
    have e1 : substituteStep s sub =
        { s with cachedNames := some s.metavariableNames } := by
      unfold substituteStep
      rw [if_neg hc]
    refine ⟨?_, by rw [e1, happ]⟩
    intro x
    rw [e1]
    have hsx := hs x
    simp only [namesCacheAccurate, Substitution.metavariableNames] at hsx ⊢
    simpa only [Option.getD_some] using hsx

theorem substitute_fold_spec : ∀ (subs : List Substitution) (s : Substitution),
    namesCacheAccurate s →
    (∀ sub ∈ subs, isMetavariable sub.metavariable = true ∧ namesCacheAccurate sub) →
    namesCacheAccurate (s.substitute subs)
    ∧ (s.substitute subs).expression =
        subs.foldl (fun expr sub => Substitution.appliedTo sub expr) s.expression := by
  intro subs
  induction subs with
  | nil => intro s hs _; exact ⟨hs, rfl⟩
  | cons sub subs ih =>
    intro s hs hsubs
    obtain ⟨hm, hsub⟩ := hsubs sub (by simp)
    have step := substituteStep_spec s sub hs hm hsub
    have tail := ih (substituteStep s sub) step.1 (fun x hx => hsubs x (by simp [hx]))
    refine ⟨?_, ?_⟩
    · simpa [Substitution.substitute, List.foldl_cons] using tail.1
    · have h1 : (s.substitute (sub :: subs)).expression =
          ((substituteStep s sub).substitute subs).expression := by
        simp [Substitution.substitute, List.foldl_cons]
      rw [h1, tail.2, step.2]
      simp [List.foldl_cons]

/--
Claim C7: substitute() replaces the substitution's expression with the
result of sequentially applying the given substitutions to it, and the
cached metavariable-name set remains exactly the set of metavariable names
occurring in the updated expression: the cache invariant is preserved by
every substitute() call, given that the inputs themselves satisfy it and
their metavariables are metavariable symbols, as the constructor guarantees.
-/
theorem substitute_preserves_name_cache (s : Substitution)
    (subs : List Substitution) (hs : namesCacheAccurate s)
    (hsubs : ∀ sub ∈ subs,
      isMetavariable sub.metavariable = true ∧ namesCacheAccurate sub) :
    (s.substitute subs).expression =
      subs.foldl (fun expr sub => Substitution.appliedTo sub expr) s.expression
    ∧ namesCacheAccurate (s.substitute subs) :=
  ⟨(substitute_fold_spec subs s hs hsubs).2, (substitute_fold_spec subs s hs hsubs).1⟩

/-- Witness for C7: substituting y for A inside the substitution
(S, f(A)) yields expression f(y) with an accurate name cache. -/
theorem substitute_preserves_name_cache_witness :
    namesCacheAccurate ⟨.sym "S" true, .app [.sym "f" false, .sym "A" true], none⟩
    ∧ ((Substitution.substitute
          ⟨.sym "S" true, .app [.sym "f" false, .sym "A" true], none⟩
          [⟨.sym "A" true, .sym "y" false, none⟩]).expression =
        [(⟨.sym "A" true, .sym "y" false, none⟩ : Substitution)].foldl
          (fun expr sub => Substitution.appliedTo sub expr)
          (Expression.app [.sym "f" false, .sym "A" true])
      ∧ namesCacheAccurate (Substitution.substitute
          ⟨.sym "S" true, .app [.sym "f" false, .sym "A" true], none⟩
          [⟨.sym "A" true, .sym "y" false, none⟩])) :=
  ⟨fun x => Iff.rfl,
   substitute_preserves_name_cache
     ⟨.sym "S" true, .app [.sym "f" false, .sym "A" true], none⟩
     [⟨.sym "A" true, .sym "y" false, none⟩]
     (fun x => Iff.rfl)
     (by
       intro sub hmem
       rw [List.mem_singleton] at hmem
       subst hmem
       exact ⟨by decide, fun x => Iff.rfl⟩)⟩
